import Mathlib

/-
Shallow embedding of servo's image cache core
(src/components/net_traits/image_cache.rs) together with proofs of the
specified properties.  Pure data is translated directly; the `RwLock`-guarded
`HashMap`s are modelled as association lists with explicit state passing,
and every Rust operation that can panic (`unwrap`, `assert!`, explicit
panics, `unreachable!`, u64 overflow in debug builds) returns `Option`,
with `none` standing for the panic.
-/

set_option autoImplicit false

namespace ImageCacheModel

/-- URLs are compared for byte-for-byte equality only; a string models them. -/
abbrev ServoUrl := String

/-- Network errors are an opaque external payload; a string models them. -/
abbrev NetworkError := String

/-- A decoded raster image is opaque to the cache; only its identity matters. -/
structure Image where
  payload : Nat
deriving DecidableEq, Repr

/-- Image metadata (dimensions) available before the full body arrives. -/
structure ImageMetadata where
  width : Nat
  height : Nat
deriving DecidableEq, Repr

/-- The unique id for an image that has previously been requested
(struct PendingImageId(pub u64)). -/
structure PendingImageId where
  id : Nat
deriving DecidableEq, Repr

/-- A key used to communicate during loading (type LoadKey = PendingImageId). -/
abbrev LoadKey := PendingImageId

/-- Rust Result of a finished network transfer (Result of unit and NetworkError). -/
inductive LoadResult where
  | ok : LoadResult
  | err (e : NetworkError) : LoadResult
deriving DecidableEq, Repr

/-- enum ImageBytes: the byte buffer of a pending load, mutable while in
progress, frozen into a shared (Arc) vector once complete. -/
inductive ImageBytes where
  | inProgress (bytes : List Nat) : ImageBytes
  | complete (bytes : List Nat) : ImageBytes
deriving DecidableEq, Repr

namespace ImageBytes

/-- ImageBytes::extend_from_slice; the Complete arm panics, modelled as none. -/
def extend_from_slice (b : ImageBytes) (data : List Nat) : Option ImageBytes :=
  match b with
  | inProgress bytes => some (inProgress (bytes ++ data))
  | complete _ => none

/-- ImageBytes::mark_complete: freezes the buffer, returning the shared vector
and the new state; panics (none) when already complete. -/
def mark_complete (b : ImageBytes) : Option (List Nat × ImageBytes) :=
  match b with
  | inProgress bytes => some (bytes, complete bytes)
  | complete _ => none

/-- ImageBytes::as_slice. -/
def as_slice (b : ImageBytes) : List Nat :=
  match b with
  | inProgress bytes => bytes
  | complete bytes => bytes

/-- Whether the buffer is still being accumulated. -/
def isInProgress (b : ImageBytes) : Bool :=
  match b with
  | inProgress _ => true
  | complete _ => false

end ImageBytes

/-- enum ImageOrMetadataAvailable. -/
inductive ImageOrMetadataAvailable where
  | imageAvailable (image : Image) : ImageOrMetadataAvailable
  | metadataAvailable (m : ImageMetadata) : ImageOrMetadataAvailable
deriving DecidableEq, Repr

/-- enum ImageResponse: the terminal classification stored in a CompletedLoad. -/
inductive ImageResponse where
  | loaded (image : Image) : ImageResponse
  | metadataLoaded (m : ImageMetadata) : ImageResponse
  | placeholderLoaded (image : Image) : ImageResponse
  | none : ImageResponse
deriving DecidableEq, Repr

/-- enum ImageState: the non-terminal classification returned to consumers. -/
inductive ImageState where
  | pending (k : PendingImageId) : ImageState
  | loadError : ImageState
  | notRequested (k : PendingImageId) : ImageState
deriving DecidableEq, Repr

/-- enum CanRequestImages. -/
inductive CanRequestImages where
  | no : CanRequestImages
  | yes : CanRequestImages
deriving DecidableEq, Repr

/-- enum UsePlaceholder. -/
inductive UsePlaceholder where
  | no : UsePlaceholder
  | yes : UsePlaceholder
deriving DecidableEq, Repr

/-- struct CompletedLoad: immutable final state for a URL. -/
structure CompletedLoad where
  image_response : ImageResponse
  id : PendingImageId
deriving DecidableEq, Repr

/-- CompletedLoad::new. -/
def CompletedLoad.new (image_response : ImageResponse) (id : PendingImageId) :
    CompletedLoad :=
  { image_response := image_response, id := id }

/-- struct PendingLoad: one in-flight fetch and decode. -/
structure PendingLoad where
  bytes : ImageBytes
  metadata : Option ImageMetadata
  result : Option LoadResult
  url : ServoUrl
deriving DecidableEq, Repr

/-- PendingLoad::new. -/
def PendingLoad.new (url : ServoUrl) : PendingLoad :=
  { bytes := ImageBytes.inProgress []
  , metadata := none
  , result := none
  , url := url }

/-- struct LoadKeyGenerator: RwLock-guarded u64 counter. -/
structure LoadKeyGenerator where
  counter : Nat
deriving DecidableEq, Repr

/-- LoadKeyGenerator::new. -/
def LoadKeyGenerator.new : LoadKeyGenerator := { counter := 0 }

/-- LoadKeyGenerator::next: increments the u64 counter and returns the key.
Overflow of the u64 increment is fatal (debug panic), modelled as none. -/
def LoadKeyGenerator.next (g : LoadKeyGenerator) :
    Option (PendingImageId × LoadKeyGenerator) :=
  if g.counter + 1 < 2 ^ 64 then
    some (⟨g.counter + 1⟩, { counter := g.counter + 1 })
  else
    Option.none

/-- Iterated calls to LoadKeyGenerator::next, collecting the issued keys. -/
def LoadKeyGenerator.nextN : Nat → LoadKeyGenerator →
    Option (List PendingImageId × LoadKeyGenerator)
  | 0, g => some ([], g)
  | n + 1, g =>
    match g.next with
    | Option.none => Option.none
    | some (k, g') =>
      match LoadKeyGenerator.nextN n g' with
      | Option.none => Option.none
      | some (ks, g'') => some (k :: ks, g'')

section AList

variable {α : Type} {β : Type} [DecidableEq α]

/-- Lookup in an association list modelling a HashMap (HashMap::get). -/
def alookup : List (α × β) → α → Option β
  | [], _ => Option.none
  | (k, v) :: rest, a => if k = a then some v else alookup rest a

/-- Removal from an association list modelling HashMap::remove. -/
def aerase : List (α × β) → α → List (α × β)
  | [], _ => []
  | (k, v) :: rest, a => if k = a then aerase rest a else (k, v) :: aerase rest a

/-- Insertion modelling HashMap::insert (replaces any existing entry). -/
def ainsert (m : List (α × β)) (a : α) (b : β) : List (α × β) :=
  (a, b) :: aerase m a

end AList

/-- struct AllPendingLoads: the two RwLock-guarded HashMaps and the key
generator, modelled as association lists plus the counter state. -/
structure AllPendingLoads where
  loads : List (LoadKey × PendingLoad)
  url_to_load_key : List (ServoUrl × LoadKey)
  keygen : LoadKeyGenerator
deriving DecidableEq, Repr

/-- enum CacheResult (returned by AllPendingLoads::get_cached); references are
modelled by returning the values themselves. -/
inductive CacheResult where
  | hit (key : LoadKey) (pl : PendingLoad) : CacheResult
  | miss (entry : Option (LoadKey × PendingLoad)) : CacheResult
deriving DecidableEq, Repr

namespace AllPendingLoads

/-- AllPendingLoads::new. -/
def new : AllPendingLoads :=
  { loads := [], url_to_load_key := [], keygen := LoadKeyGenerator.new }

/-- AllPendingLoads::is_empty: asserts that the two indices agree on emptiness
(assert! failure modelled as none) and returns whether loads is empty. -/
def is_empty (s : AllPendingLoads) : Option Bool :=
  if s.loads.isEmpty = s.url_to_load_key.isEmpty then
    some s.loads.isEmpty
  else
    Option.none

/-- AllPendingLoads::remove: removes the key from the key-index; when a load
was present, removes its URL from the URL-index (the unwrap on that removal
panics, none, if the URL is not tracked) and returns the load. -/
def remove (s : AllPendingLoads) (key : LoadKey) :
    Option (Option PendingLoad × AllPendingLoads) :=
  match alookup s.loads key with
  | Option.none => some (Option.none, s)
  | some pending_load =>
    match alookup s.url_to_load_key pending_load.url with
    | Option.none => Option.none
    | some _ =>
      some (some pending_load,
        { s with
          loads := aerase s.loads key
          url_to_load_key := aerase s.url_to_load_key pending_load.url })

/-- AllPendingLoads::get_cached (the commented-out body at image_cache.rs
lines 59-84): Occupied URL entry returns a hit (the unwrap on the key-index
lookup panics, none, if inconsistent); a vacant URL entry either misses with
no entry when requesting is forbidden, or allocates a fresh key, inserts into
the URL-index, and inserts a fresh PendingLoad into the key-index (an occupied
key-index entry there is unreachable, modelled as none). -/
def get_cached (s : AllPendingLoads) (url : ServoUrl)
    (can_request : CanRequestImages) : Option (CacheResult × AllPendingLoads) :=
  match alookup s.url_to_load_key url with
  | some load_key =>
    match alookup s.loads load_key with
    | Option.none => Option.none
    | some pl => some (CacheResult.hit load_key pl, s)
  | Option.none =>
    match can_request with
    | CanRequestImages.no => some (CacheResult.miss Option.none, s)
    | CanRequestImages.yes =>
      match s.keygen.next with
      | Option.none => Option.none
      | some (load_key, keygen') =>
        let url_to_load_key' := (url, load_key) :: s.url_to_load_key
        let pending_load := PendingLoad.new url
        match alookup s.loads load_key with
        | some _ => Option.none
        | Option.none =>
          some (CacheResult.miss (some (load_key, pending_load)),
            { loads := (load_key, pending_load) :: s.loads
              url_to_load_key := url_to_load_key'
              keygen := keygen' })

/-- The two-map consistency invariant of AllPendingLoads, together with the
representation facts that make it maintainable: the indices have equal
cardinality, each key-index entry's URL maps back to that key, each URL-index
entry points to a key-index entry storing that URL, keys are duplicate-free in
both indices, every issued key is bounded by the generator counter, and the
u64 counter is in range. -/
def consistent (s : AllPendingLoads) : Prop :=
  s.loads.length = s.url_to_load_key.length ∧
  (∀ p ∈ s.loads, alookup s.url_to_load_key p.2.url = some p.1) ∧
  (∀ q ∈ s.url_to_load_key,
    (alookup s.loads q.2).map PendingLoad.url = some q.1) ∧
  (s.loads.map Prod.fst).Nodup ∧
  (s.url_to_load_key.map Prod.fst).Nodup ∧
  (∀ p ∈ s.loads, p.1.id ≤ s.keygen.counter) ∧
  s.keygen.counter < 2 ^ 64

instance (s : AllPendingLoads) : Decidable s.consistent := by
  unfold consistent
  infer_instance

end AllPendingLoads

/-- Modelled from the spec: the messages the fetch collaborator delivers to
notify_pending_response — incremental body chunks, metadata availability, and
a terminal outcome.  The FetchResponseMsg type itself is imported from outside
this core. -/
inductive FetchResponseMsg where
  | processResponseChunk (data : List Nat) : FetchResponseMsg
  | processMetadata (m : ImageMetadata) : FetchResponseMsg
  | processResponseEof (result : LoadResult) : FetchResponseMsg
deriving DecidableEq, Repr

/-- struct ImageCache: the completed-load table, the pending-load index, and
the leftover test counter field. -/
structure ImageCache where
  remove_me : Int
  completed_loads : List (ServoUrl × CompletedLoad)
  pending_loads : AllPendingLoads
deriving DecidableEq, Repr

namespace ImageCache

/-- ImageCache::new. -/
def new : ImageCache :=
  { remove_me := 0, completed_loads := [], pending_loads := AllPendingLoads.new }

/-- ImageCache::get_completed_image_if_available: classifies the completed
entry for the URL, or none when the URL is absent from the completed table. -/
def get_completed_image_if_available (c : ImageCache) (url : ServoUrl)
    (placeholder : UsePlaceholder) :
    Option (Except ImageState ImageOrMetadataAvailable) :=
  (alookup c.completed_loads url).map (fun completed_load =>
    match completed_load.image_response, placeholder with
    | ImageResponse.loaded image, _ =>
      Except.ok (ImageOrMetadataAvailable.imageAvailable image)
    | ImageResponse.placeholderLoaded image, UsePlaceholder.yes =>
      Except.ok (ImageOrMetadataAvailable.imageAvailable image)
    | ImageResponse.placeholderLoaded _, UsePlaceholder.no =>
      Except.error ImageState.loadError
    | ImageResponse.none, _ => Except.error ImageState.loadError
    | ImageResponse.metadataLoaded _, _ => Except.error ImageState.loadError)

/-- ImageCache::find_image_or_metadata (the commented-out body at
image_cache.rs lines 300-341): the completed table is consulted first; on a
miss the dedup lookup runs, a hit with a terminal Ok decodes synchronously and
re-checks the completed table, a hit with metadata but no terminal result
returns the metadata, other hits are pending, a created miss is not-requested
and a refused miss is a load error.  The external decode_bytes_sync plus
handle_decoder pipeline is passed in as handle_decode, a state transformer on
the cache taking the key and the accumulated bytes. -/
def find_image_or_metadata
    (handle_decode : ImageCache → LoadKey → List Nat → ImageCache)
    (c : ImageCache) (url : ServoUrl) (use_placeholder : UsePlaceholder)
    (can_request : CanRequestImages) :
    Option (Except ImageState ImageOrMetadataAvailable × ImageCache) :=
  match c.get_completed_image_if_available url use_placeholder with
  | some result => some (result, c)
  | Option.none =>
    match c.pending_loads.get_cached url can_request with
    | Option.none => Option.none
    | some (CacheResult.hit key pl, s') =>
      match pl.result, pl.metadata with
      | some LoadResult.ok, _ =>
        let c2 := handle_decode { c with pending_loads := s' } key
          pl.bytes.as_slice
        match c2.get_completed_image_if_available url use_placeholder with
        | some result => some (result, c2)
        | Option.none => some (Except.error ImageState.loadError, c2)
      | Option.none, some meta =>
        some (Except.ok (ImageOrMetadataAvailable.metadataAvailable meta),
          { c with pending_loads := s' })
      | some (LoadResult.err _), _ =>
        some (Except.error (ImageState.pending key),
          { c with pending_loads := s' })
      | Option.none, Option.none =>
        some (Except.error (ImageState.pending key),
          { c with pending_loads := s' })
    | some (CacheResult.miss (some (key, _)), s') =>
      some (Except.error (ImageState.notRequested key),
        { c with pending_loads := s' })
    | some (CacheResult.miss Option.none, s') =>
      some (Except.error ImageState.loadError,
        { c with pending_loads := s' })

/-- Modelled from the spec: ImageCache::notify_pending_response is an empty
stub in the source; section 4.4 of the design gives its behavior.  A body
chunk is appended to the pending load's byte buffer (fatal, none, after the
buffer is frozen, and ignored when the key matches no pending load); metadata
delivery overwrites the optional metadata field; a terminal outcome removes
the pending load from both indices and inserts a CompletedLoad keyed by the
load's original URL — freezing the bytes and handing them to the external
decoder on success, substituting the configured placeholder or the none
response on failure — while a terminal outcome whose key matches no pending
load is rejected without touching the completed table. -/
def notify_pending_response (decode : List Nat → ImageResponse)
    (placeholder_image : Option Image) (c : ImageCache) (id : PendingImageId)
    (data : FetchResponseMsg) : Option ImageCache :=
  match data with
  | FetchResponseMsg.processResponseChunk chunk =>
    match alookup c.pending_loads.loads id with
    | Option.none => some c
    | some pl =>
      match pl.bytes.extend_from_slice chunk with
      | Option.none => Option.none
      | some bytes' =>
        let loads' := ainsert c.pending_loads.loads id { pl with bytes := bytes' }
        some { c with pending_loads := { c.pending_loads with loads := loads' } }
  | FetchResponseMsg.processMetadata meta =>
    match alookup c.pending_loads.loads id with
    | Option.none => some c
    | some pl =>
      let pl' := { pl with metadata := some meta }
      let loads' := ainsert c.pending_loads.loads id pl'
      some { c with pending_loads := { c.pending_loads with loads := loads' } }
  | FetchResponseMsg.processResponseEof result =>
    match c.pending_loads.remove id with
    | Option.none => Option.none
    | some (Option.none, s') => some { c with pending_loads := s' }
    | some (some pl, s') =>
      match result with
      | LoadResult.ok =>
        match pl.bytes.mark_complete with
        | Option.none => Option.none
        | some (buffer, _) =>
          let done := CompletedLoad.new (decode buffer) id
          let completed' := ainsert c.completed_loads pl.url done
          some { c with pending_loads := s', completed_loads := completed' }
      | LoadResult.err _ =>
        let response := match placeholder_image with
          | some image => ImageResponse.placeholderLoaded image
          | Option.none => ImageResponse.none
        let done := CompletedLoad.new response id
        let completed' := ainsert c.completed_loads pl.url done
        some { c with pending_loads := s', completed_loads := completed' }

/-- The cache state after finalizing the pending load pl tracked under key id
into the completed table with the given terminal response: both pending
indices drop their entries and the completed table gains one keyed by the
load's original URL. -/
def finalize (c : ImageCache) (id : PendingImageId) (pl : PendingLoad)
    (response : ImageResponse) : ImageCache :=
  { c with
    pending_loads := { c.pending_loads with
      loads := aerase c.pending_loads.loads id
      url_to_load_key := aerase c.pending_loads.url_to_load_key pl.url }
    completed_loads := ainsert c.completed_loads pl.url
      (CompletedLoad.new response id) }

end ImageCache

/-
Association-list lemmas used by the proofs below.
-/

section AListLemmas

variable {α : Type} {β : Type} [DecidableEq α]

theorem alookup_cons_self (k : α) (v : β) (m : List (α × β)) :
    alookup ((k, v) :: m) k = some v := by
  simp [alookup]

theorem alookup_cons_ne (k a : α) (v : β) (m : List (α × β)) (h : k ≠ a) :
    alookup ((k, v) :: m) a = alookup m a := by
  simp [alookup, h]

theorem aerase_of_not_mem (m : List (α × β)) (a : α)
    (h : alookup m a = Option.none) : aerase m a = m := by
  induction m with
  | nil => rfl
  | cons p rest ih =>
    obtain ⟨k, v⟩ := p
    by_cases hk : k = a
    · subst hk; simp [alookup] at h
    · simp [alookup, hk] at h
      simp [aerase, hk, ih h]

theorem alookup_aerase_self (m : List (α × β)) (a : α) :
    alookup (aerase m a) a = Option.none := by
  induction m with
  | nil => rfl
  | cons p rest ih =>
    obtain ⟨k, v⟩ := p
    by_cases hk : k = a
    · simpa [aerase, hk] using ih
    · simpa [aerase, alookup, hk] using ih

theorem alookup_aerase_ne (m : List (α × β)) (a b : α) (h : a ≠ b) :
    alookup (aerase m a) b = alookup m b := by
  induction m with
  | nil => rfl
  | cons p rest ih =>
    obtain ⟨k, v⟩ := p
    by_cases hk : k = a
    · subst hk
      have hkb : k ≠ b := h
      simp [aerase, alookup, hkb, ih]
    · by_cases hkb : k = b
      · subst hkb; simp [aerase, alookup, hk]
      · simp [aerase, alookup, hk, hkb, ih]

theorem length_aerase_of_mem (m : List (α × β)) (a : α) (v : β)
    (hnd : (m.map Prod.fst).Nodup) (h : alookup m a = some v) :
    (aerase m a).length + 1 = m.length := by
  induction m with
  | nil => simp [alookup] at h
  | cons p rest ih =>
    obtain ⟨k, w⟩ := p
    simp only [List.map_cons, List.nodup_cons] at hnd
    by_cases hk : k = a
    · subst hk
      have : alookup rest k = Option.none := by
        cases hrest : alookup rest k with
        | none => rfl
        | some u =>
          exfalso
          apply hnd.1
          clear ih h hnd
          induction rest with
          | nil => simp [alookup] at hrest
          | cons q qs ihq =>
            obtain ⟨k', v'⟩ := q
            by_cases hk' : k' = k
            · subst hk'; simp
            · simp [alookup, hk'] at hrest
              simp [ihq hrest]
      simp [aerase, aerase_of_not_mem rest k this]
    · simp [alookup, hk] at h
      simp [aerase, hk, ih hnd.2 h]

theorem mem_keys_aerase (m : List (α × β)) (a k : α)
    (h : k ∈ (aerase m a).map Prod.fst) : k ∈ m.map Prod.fst := by
  induction m with
  | nil => simp [aerase] at h
  | cons p rest ih =>
    obtain ⟨k', v'⟩ := p
    by_cases hk' : k' = a
    · simp only [aerase, if_pos hk'] at h
      simp only [List.map_cons, List.mem_cons]
      exact Or.inr (ih h)
    · simp only [aerase, if_neg hk', List.map_cons, List.mem_cons] at h
      simp only [List.map_cons, List.mem_cons]
      rcases h with h | h
      · exact Or.inl h
      · exact Or.inr (ih h)

theorem nodup_keys_aerase (m : List (α × β)) (a : α)
    (hnd : (m.map Prod.fst).Nodup) : ((aerase m a).map Prod.fst).Nodup := by
  induction m with
  | nil => simp [aerase]
  | cons p rest ih =>
    obtain ⟨k, v⟩ := p
    simp only [List.map_cons, List.nodup_cons] at hnd
    by_cases hk : k = a
    · simp [aerase, hk, ih hnd.2]
    · have hstep : aerase ((k, v) :: rest) a = (k, v) :: aerase rest a := by
        simp [aerase, hk]
      rw [hstep]
      simp only [List.map_cons, List.nodup_cons]
      exact ⟨fun hmem => hnd.1 (mem_keys_aerase rest a k hmem), ih hnd.2⟩

theorem alookup_isSome_of_mem (m : List (α × β)) (k : α) (v : β)
    (h : (k, v) ∈ m) : (alookup m k).isSome := by
  induction m with
  | nil => simp at h
  | cons p rest ih =>
    obtain ⟨k', v'⟩ := p
    by_cases hk : k' = k
    · simp [alookup, hk]
    · rcases List.mem_cons.mp h with h' | h'
      · cases h'; simp at hk
      · simpa [alookup, hk] using ih h'

theorem mem_of_alookup_eq_some (m : List (α × β)) (k : α) (v : β)
    (h : alookup m k = some v) : (k, v) ∈ m := by
  induction m with
  | nil => simp [alookup] at h
  | cons p rest ih =>
    obtain ⟨k', v'⟩ := p
    by_cases hk : k' = k
    · subst hk
      simp [alookup] at h
      simp [h]
    · simp [alookup, hk] at h
      simp [ih h]

theorem mem_aerase (m : List (α × β)) (a : α) (p : α × β)
    (h : p ∈ aerase m a) : p ∈ m ∧ p.1 ≠ a := by
  induction m with
  | nil => simp [aerase] at h
  | cons q rest ih =>
    obtain ⟨k, v⟩ := q
    by_cases hk : k = a
    · simp only [aerase, if_pos hk] at h
      exact ⟨List.mem_cons_of_mem _ (ih h).1, (ih h).2⟩
    · simp only [aerase, if_neg hk, List.mem_cons] at h
      rcases h with h | h
      · subst h
        exact ⟨List.mem_cons_self _ _, hk⟩
      · exact ⟨List.mem_cons_of_mem _ (ih h).1, (ih h).2⟩

theorem alookup_isSome_of_key_mem (m : List (α × β)) (a : α)
    (h : a ∈ m.map Prod.fst) : (alookup m a).isSome := by
  rcases List.mem_map.mp h with ⟨p, hp, hfst⟩
  obtain ⟨k, v⟩ := p
  cases hfst
  exact alookup_isSome_of_mem m k v hp

theorem alookup_eq_none_iff_key_not_mem (m : List (α × β)) (a : α) :
    alookup m a = Option.none ↔ a ∉ m.map Prod.fst := by
  constructor
  · intro h hmem
    have := alookup_isSome_of_key_mem m a hmem
    rw [h] at this
    simp at this
  · intro h
    cases hl : alookup m a with
    | none => rfl
    | some v =>
      exact absurd (List.mem_map.mpr ⟨(a, v), mem_of_alookup_eq_some m a v hl, rfl⟩) h

end AListLemmas

/-
Lemmas about the AllPendingLoads consistency invariant.
-/

namespace AllPendingLoads

theorem consistent.url_of_load {s : AllPendingLoads} (hs : s.consistent)
    {k : LoadKey} {pl : PendingLoad} (h : alookup s.loads k = some pl) :
    alookup s.url_to_load_key pl.url = some k :=
  hs.2.1 (k, pl) (mem_of_alookup_eq_some _ _ _ h)

theorem consistent.load_of_url {s : AllPendingLoads} (hs : s.consistent)
    {u : ServoUrl} {k : LoadKey} (h : alookup s.url_to_load_key u = some k) :
    ∃ pl, alookup s.loads k = some pl ∧ pl.url = u := by
  have h2 := hs.2.2.1 (u, k) (mem_of_alookup_eq_some _ _ _ h)
  cases hl : alookup s.loads k with
  | none => rw [hl] at h2; simp at h2
  | some pl =>
    rw [hl] at h2
    simp only [Option.map_some] at h2
    exact ⟨pl, rfl, Option.some.inj h2⟩

theorem consistent.fresh_key_not_in_loads {s : AllPendingLoads}
    (hs : s.consistent) :
    alookup s.loads ⟨s.keygen.counter + 1⟩ = Option.none := by
  cases hl : alookup s.loads ⟨s.keygen.counter + 1⟩ with
  | none => rfl
  | some pl =>
    have hmem := mem_of_alookup_eq_some _ _ _ hl
    have hle := hs.2.2.2.2.2.1 _ hmem
    change s.keygen.counter + 1 ≤ s.keygen.counter at hle
    omega

/-- remove preserves the consistency invariant. -/
theorem consistent_remove {s : AllPendingLoads} (hs : s.consistent)
    {key : LoadKey} {r : Option PendingLoad} {s' : AllPendingLoads}
    (h : s.remove key = some (r, s')) : s'.consistent := by
  obtain ⟨hlen, hload, hurl, hndl, hndu, hkg, hcnt⟩ := hs
  cases hl : alookup s.loads key with
  | none =>
    simp only [remove, hl, Option.some.injEq, Prod.mk.injEq] at h
    rw [← h.2]
    exact ⟨hlen, hload, hurl, hndl, hndu, hkg, hcnt⟩
  | some pl =>
    have hu : alookup s.url_to_load_key pl.url = some key :=
      hload (key, pl) (mem_of_alookup_eq_some _ _ _ hl)
    simp only [remove, hl, hu, Option.some.injEq, Prod.mk.injEq] at h
    obtain ⟨-, hs'⟩ := h
    subst hs'
    refine ⟨?_, ?_, ?_, ?_, ?_, ?_, hcnt⟩
    · have h1 := length_aerase_of_mem s.loads key pl hndl hl
      have h2 := length_aerase_of_mem s.url_to_load_key pl.url key hndu hu
      simp only at h1 h2 ⊢
      omega
    · intro p hp
      obtain ⟨hpmem, hpne⟩ := mem_aerase s.loads key p hp
      have hpu := hload p hpmem
      have hne : p.2.url ≠ pl.url := by
        intro he
        rw [he, hu] at hpu
        exact hpne (Option.some.inj hpu).symm
      simp only
      rw [alookup_aerase_ne s.url_to_load_key pl.url p.2.url (fun hx => hne hx.symm)]
      exact hpu
    · intro q hq
      obtain ⟨hqmem, hqne⟩ := mem_aerase s.url_to_load_key pl.url q hq
      have hqu := hurl q hqmem
      have hne : q.2 ≠ key := by
        intro he
        rw [he, hl] at hqu
        simp only [Option.map_some'] at hqu
        exact hqne (Option.some.inj hqu).symm
      simp only
      rw [alookup_aerase_ne s.loads key q.2 (fun hx => hne hx.symm)]
      exact hqu
    · exact nodup_keys_aerase s.loads key hndl
    · exact nodup_keys_aerase s.url_to_load_key pl.url hndu
    · intro p hp
      exact hkg p (mem_aerase s.loads key p hp).1

/-- get_cached preserves the consistency invariant. -/
theorem consistent_get_cached {s : AllPendingLoads} (hs : s.consistent)
    {url : ServoUrl} {cr : CanRequestImages} {r : CacheResult}
    {s' : AllPendingLoads} (h : s.get_cached url cr = some (r, s')) :
    s'.consistent := by
  obtain ⟨hlen, hload, hurl, hndl, hndu, hkg, hcnt⟩ := hs
  cases hu : alookup s.url_to_load_key url with
  | some load_key =>
    cases hl : alookup s.loads load_key with
    | none => simp [get_cached, hu, hl] at h
    | some pl =>
      simp only [get_cached, hu, hl, Option.some.injEq, Prod.mk.injEq] at h
      rw [← h.2]
      exact ⟨hlen, hload, hurl, hndl, hndu, hkg, hcnt⟩
  | none =>
    cases cr with
    | no =>
      simp only [get_cached, hu, Option.some.injEq, Prod.mk.injEq] at h
      rw [← h.2]
      exact ⟨hlen, hload, hurl, hndl, hndu, hkg, hcnt⟩
    | yes =>
      by_cases hov : s.keygen.counter + 1 < 2 ^ 64
      · cases hfresh : alookup s.loads ⟨s.keygen.counter + 1⟩ with
        | some pl =>
          have hmem := mem_of_alookup_eq_some _ _ _ hfresh
          have hle := hkg _ hmem
          change s.keygen.counter + 1 ≤ s.keygen.counter at hle
          omega
        | none =>
          simp only [get_cached, hu, LoadKeyGenerator.next, if_pos hov, hfresh,
            Option.some.injEq, Prod.mk.injEq] at h
          rw [← h.2]
          have hkey_not : (⟨s.keygen.counter + 1⟩ : LoadKey)
              ∉ s.loads.map Prod.fst :=
            (alookup_eq_none_iff_key_not_mem _ _).mp hfresh
          have hurl_not : url ∉ s.url_to_load_key.map Prod.fst :=
            (alookup_eq_none_iff_key_not_mem _ _).mp hu
          refine ⟨?_, ?_, ?_, ?_, ?_, ?_, hov⟩
          · simp [hlen]
          · intro p hp
            rcases List.mem_cons.mp hp with hp1 | hp2
            · subst hp1
              simp [alookup, PendingLoad.new]
            · have hpu := hload p hp2
              have hne : url ≠ p.2.url := by
                intro he
                rw [← he, hu] at hpu
                simp at hpu
              simp only
              rw [alookup_cons_ne url p.2.url _ s.url_to_load_key hne]
              exact hpu
          · intro q hq
            rcases List.mem_cons.mp hq with hq1 | hq2
            · subst hq1
              simp [alookup, PendingLoad.new]
            · have hqu := hurl q hq2
              have hne : (⟨s.keygen.counter + 1⟩ : LoadKey) ≠ q.2 := by
                intro he
                cases hl2 : alookup s.loads q.2 with
                | none => rw [hl2] at hqu; simp at hqu
                | some pl2 =>
                  rw [← he] at hl2
                  have hmem2 := mem_of_alookup_eq_some _ _ _ hl2
                  have hle2 := hkg _ hmem2
                  change s.keygen.counter + 1 ≤ s.keygen.counter at hle2
                  omega
              simp only
              rw [alookup_cons_ne _ q.2 _ s.loads hne]
              exact hqu
          · exact List.Nodup.cons (fun hm => hkey_not hm) hndl
          · exact List.Nodup.cons (fun hm => hurl_not hm) hndu
          · intro p hp
            rcases List.mem_cons.mp hp with hp1 | hp2
            · subst hp1; simp
            · have := hkg p hp2
              simp only
              omega
      · simp only [get_cached, hu, LoadKeyGenerator.next] at h
        rw [if_neg hov] at h
        simp at h

/-- Under consistency the URLs stored in the key-index are duplicate-free:
at most one PendingLoad exists per URL. -/
theorem urls_nodup_of_consistent {s : AllPendingLoads} (hs : s.consistent) :
    (s.loads.map (fun p => p.2.url)).Nodup := by
  have h1 : s.loads.map (fun p => alookup s.url_to_load_key p.2.url)
      = s.loads.map (fun p => some p.1) := by
    apply List.map_congr_left
    intro p hp
    exact hs.2.1 p hp
  have h2 : (s.loads.map (fun p => some p.1)).Nodup := by
    have hinj : Function.Injective (fun k : LoadKey => some k) := by
      intro a b hab
      exact Option.some.inj hab
    have h2' : ((s.loads.map Prod.fst).map (fun k : LoadKey => some k)).Nodup :=
      hs.2.2.2.1.map hinj
    rw [List.map_map] at h2'
    exact h2'
  have h3 : (s.loads.map (fun p => alookup s.url_to_load_key p.2.url)).Nodup :=
    h1 ▸ h2
  have h4 : ((s.loads.map (fun p => p.2.url)).map
      (alookup s.url_to_load_key)).Nodup := by
    rw [List.map_map]
    exact h3
  exact h4.of_map _

end AllPendingLoads

/-
Claim theorems.
-/

/-- C7: appending bytes via ImageBytes::extend_from_slice extends the
accumulated buffer with the given data while the bytes are in progress, and
is a fatal fault (panic, modelled as none) for every call made after the
buffer has been frozen into its complete, shared form. -/
theorem extend_from_slice_spec (bytes data : List Nat) :
    (ImageBytes.inProgress bytes).extend_from_slice data
      = some (ImageBytes.inProgress (bytes ++ data)) ∧
    (ImageBytes.complete bytes).extend_from_slice data = Option.none :=
  ⟨rfl, rfl⟩

/-- C9: ImageBytes::mark_complete on an in-progress buffer holding b returns
the shared buffer with contents b and transitions the value to the complete
state, after which as_slice still observes b; mark_complete on an
already-complete value panics (none). -/
theorem mark_complete_spec (bytes : List Nat) :
    (ImageBytes.inProgress bytes).mark_complete
      = some (bytes, ImageBytes.complete bytes) ∧
    (ImageBytes.complete bytes).as_slice = bytes ∧
    (ImageBytes.complete bytes).mark_complete = Option.none :=
  ⟨rfl, rfl, rfl⟩

/-- C10: PendingLoad::new produces a load whose byte buffer is in progress
and empty, whose metadata and terminal result are absent, and whose stored
URL is the given one; consequently a freshly created pending load hit by
find_image_or_metadata classifies as still pending. -/
theorem pending_load_new_spec (url : ServoUrl) :
    (PendingLoad.new url).bytes = ImageBytes.inProgress [] ∧
    (PendingLoad.new url).metadata = Option.none ∧
    (PendingLoad.new url).result = Option.none ∧
    (PendingLoad.new url).url = url ∧
    (∀ (handle_decode : ImageCache → LoadKey → List Nat → ImageCache)
      (c : ImageCache) (k : LoadKey) (up : UsePlaceholder)
      (cr : CanRequestImages),
      alookup c.completed_loads url = Option.none →
      alookup c.pending_loads.url_to_load_key url = some k →
      alookup c.pending_loads.loads k = some (PendingLoad.new url) →
      c.find_image_or_metadata handle_decode url up cr
        = some (Except.error (ImageState.pending k), c)) := by
  refine ⟨rfl, rfl, rfl, rfl, ?_⟩
  intro hd c k up cr hc hu hl
  simp [ImageCache.find_image_or_metadata,
    ImageCache.get_completed_image_if_available, hc,
    AllPendingLoads.get_cached, hu, hl, PendingLoad.new]

/-- Witness for C10 at a concrete cache holding one freshly created load. -/
theorem pending_load_new_spec_witness :
    ImageCache.find_image_or_metadata (fun c _ _ => c)
      { remove_me := 0
        completed_loads := []
        pending_loads :=
          { loads := [(⟨1⟩, PendingLoad.new "u1")]
            url_to_load_key := [("u1", ⟨1⟩)]
            keygen := ⟨1⟩ } }
      "u1" UsePlaceholder.no CanRequestImages.yes
      = some (Except.error (ImageState.pending ⟨1⟩),
        { remove_me := 0
          completed_loads := []
          pending_loads :=
            { loads := [(⟨1⟩, PendingLoad.new "u1")]
              url_to_load_key := [("u1", ⟨1⟩)]
              keygen := ⟨1⟩ } }) :=
  (pending_load_new_spec "u1").2.2.2.2 (fun c _ _ => c) _ ⟨1⟩
    UsePlaceholder.no CanRequestImages.yes rfl (by decide) (by decide)

/-- C4: get_completed_image_if_available returns the shared decoded image for
a Loaded response under either placeholder policy and for PlaceholderLoaded
under UsePlaceholder::Yes, returns the LoadError state for PlaceholderLoaded
under UsePlaceholder::No and for None and MetadataLoaded responses, and
returns no result exactly when the URL is absent from the completed table. -/
theorem get_completed_classification (c : ImageCache) (url : ServoUrl) :
    (∀ p, c.get_completed_image_if_available url p = Option.none ↔
      alookup c.completed_loads url = Option.none) ∧
    (∀ cl, alookup c.completed_loads url = some cl →
      (∀ image, cl.image_response = ImageResponse.loaded image →
        ∀ p, c.get_completed_image_if_available url p
          = some (Except.ok (ImageOrMetadataAvailable.imageAvailable image))) ∧
      (∀ image, cl.image_response = ImageResponse.placeholderLoaded image →
        c.get_completed_image_if_available url UsePlaceholder.yes
          = some (Except.ok (ImageOrMetadataAvailable.imageAvailable image)) ∧
        c.get_completed_image_if_available url UsePlaceholder.no
          = some (Except.error ImageState.loadError)) ∧
      (cl.image_response = ImageResponse.none →
        ∀ p, c.get_completed_image_if_available url p
          = some (Except.error ImageState.loadError)) ∧
      (∀ m, cl.image_response = ImageResponse.metadataLoaded m →
        ∀ p, c.get_completed_image_if_available url p
          = some (Except.error ImageState.loadError))) := by
  constructor
  · intro p
    cases h : alookup c.completed_loads url <;>
      simp [ImageCache.get_completed_image_if_available, h]
  · intro cl hcl
    refine ⟨?_, ?_, ?_, ?_⟩
    · intro image himg p
      cases p <;>
        simp [ImageCache.get_completed_image_if_available, hcl, himg]
    · intro image himg
      constructor <;>
        simp [ImageCache.get_completed_image_if_available, hcl, himg]
    · intro himg p
      cases p <;>
        simp [ImageCache.get_completed_image_if_available, hcl, himg]
    · intro m himg p
      cases p <;>
        simp [ImageCache.get_completed_image_if_available, hcl, himg]

/-- Witness for C4 on a one-entry completed table holding a failed
placeholder-substituted load. -/
theorem get_completed_classification_witness :
    ImageCache.get_completed_image_if_available
      { remove_me := 0
        completed_loads :=
          [("u1", CompletedLoad.new (ImageResponse.placeholderLoaded ⟨5⟩) ⟨1⟩)]
        pending_loads := AllPendingLoads.new }
      "u1" UsePlaceholder.yes
      = some (Except.ok (ImageOrMetadataAvailable.imageAvailable ⟨5⟩)) ∧
    ImageCache.get_completed_image_if_available
      { remove_me := 0
        completed_loads :=
          [("u1", CompletedLoad.new (ImageResponse.placeholderLoaded ⟨5⟩) ⟨1⟩)]
        pending_loads := AllPendingLoads.new }
      "u1" UsePlaceholder.no
      = some (Except.error ImageState.loadError) :=
  ((get_completed_classification _ "u1").2
    (CompletedLoad.new (ImageResponse.placeholderLoaded ⟨5⟩) ⟨1⟩)
    (by decide)).2.1 ⟨5⟩ rfl

/-- Characterization of n successful calls to LoadKeyGenerator::next: the
counter advances by n and the issued keys are the consecutive values above
the starting counter. -/
theorem nextN_eq (n : Nat) : ∀ (g : LoadKeyGenerator)
    (ks : List PendingImageId) (g' : LoadKeyGenerator),
    LoadKeyGenerator.nextN n g = some (ks, g') →
    g'.counter = g.counter + n ∧
    ks = (List.range n).map (fun i => ⟨g.counter + i + 1⟩) := by
  induction n with
  | zero =>
    intro g ks g' h
    simp only [LoadKeyGenerator.nextN, Option.some.injEq, Prod.mk.injEq] at h
    obtain ⟨h1, h2⟩ := h
    subst h2
    refine ⟨by omega, ?_⟩
    rw [← h1]
    simp
  | succ n ih =>
    intro g ks g' h
    simp only [LoadKeyGenerator.nextN, LoadKeyGenerator.next] at h
    by_cases hov : g.counter + 1 < 2 ^ 64
    · rw [if_pos hov] at h
      simp only at h
      cases hrec : LoadKeyGenerator.nextN n { counter := g.counter + 1 } with
      | none => rw [hrec] at h; simp at h
      | some p =>
        obtain ⟨ks2, g2⟩ := p
        rw [hrec] at h
        simp only [Option.some.injEq, Prod.mk.injEq] at h
        obtain ⟨hks, hg⟩ := h
        obtain ⟨hc, hk⟩ := ih _ _ _ hrec
        simp only at hc hk
        constructor
        · rw [← hg, hc]
          omega
        · rw [← hks, hk, List.range_succ_eq_map, List.map_cons, List.map_map]
          congr 1
          apply List.map_congr_left
          intro i _
          simp only [Function.comp_apply]
          congr 1
          omega
    · rw [if_neg hov] at h
      simp at h

/-- C8: along every successful sequence of calls to LoadKeyGenerator::next
from a fresh generator, each returned key is strictly greater than every
previously issued key, and no key is returned twice. -/
theorem load_key_generator_monotonic (n : Nat) (ks : List PendingImageId)
    (g' : LoadKeyGenerator)
    (h : LoadKeyGenerator.nextN n LoadKeyGenerator.new = some (ks, g')) :
    List.Pairwise (fun a b : PendingImageId => a.id < b.id) ks ∧ ks.Nodup := by
  obtain ⟨-, hk⟩ := nextN_eq n LoadKeyGenerator.new ks g' h
  subst hk
  have hpair : List.Pairwise (fun a b : PendingImageId => a.id < b.id)
      ((List.range n).map
        (fun i => (⟨LoadKeyGenerator.new.counter + i + 1⟩ : PendingImageId))) := by
    rw [List.pairwise_map]
    refine (List.pairwise_lt_range n).imp ?_
    intro a b hab
    show LoadKeyGenerator.new.counter + a + 1 < LoadKeyGenerator.new.counter + b + 1
    omega
  refine ⟨hpair, ?_⟩
  refine hpair.imp ?_
  intro a b hab heq
  rw [heq] at hab
  omega

/-- Witness for C8: the first three issued keys. -/
theorem load_key_generator_monotonic_witness :
    List.Pairwise (fun a b : PendingImageId => a.id < b.id)
      [⟨1⟩, ⟨2⟩, ⟨3⟩] ∧
    ([(⟨1⟩ : PendingImageId), ⟨2⟩, ⟨3⟩]).Nodup :=
  load_key_generator_monotonic 3 [⟨1⟩, ⟨2⟩, ⟨3⟩] ⟨3⟩ (by decide)

/-- C6: on a consistent AllPendingLoads state, remove(key) returns the
pending load and removes exactly the corresponding entry from the key-index
and the URL-index when the key is present, and returns None leaving both
indices unchanged when the key is unknown. -/
theorem remove_spec (s : AllPendingLoads) (key : LoadKey)
    (hs : s.consistent) :
    (alookup s.loads key = Option.none →
      s.remove key = some (Option.none, s)) ∧
    (∀ pl, alookup s.loads key = some pl →
      s.remove key = some (some pl,
        { s with loads := aerase s.loads key
                 url_to_load_key := aerase s.url_to_load_key pl.url }) ∧
      (∀ k, alookup (aerase s.loads key) k
        = if k = key then Option.none else alookup s.loads k) ∧
      (∀ u, alookup (aerase s.url_to_load_key pl.url) u
        = if u = pl.url then Option.none else alookup s.url_to_load_key u)) := by
  constructor
  · intro h
    simp [AllPendingLoads.remove, h]
  · intro pl hl
    have hu := hs.url_of_load hl
    refine ⟨by simp [AllPendingLoads.remove, hl, hu], ?_, ?_⟩
    · intro k
      by_cases hk : k = key
      · subst hk
        simp [alookup_aerase_self]
      · rw [if_neg hk]
        exact alookup_aerase_ne s.loads key k (fun he => hk he.symm)
    · intro u
      by_cases hku : u = pl.url
      · subst hku
        simp [alookup_aerase_self]
      · rw [if_neg hku]
        exact alookup_aerase_ne s.url_to_load_key pl.url u (fun he => hku he.symm)

/-- Witness for C6 on a concrete one-entry state: removal of the present key
and removal of an unknown key. -/
theorem remove_spec_witness :
    AllPendingLoads.remove
        { loads := [(⟨1⟩, PendingLoad.new "u1")]
          url_to_load_key := [("u1", ⟨1⟩)]
          keygen := ⟨1⟩ } ⟨1⟩
      = some (some (PendingLoad.new "u1"),
        { loads := aerase [(⟨1⟩, PendingLoad.new "u1")] ⟨1⟩
          url_to_load_key := aerase [("u1", ⟨1⟩)] (PendingLoad.new "u1").url
          keygen := ⟨1⟩ }) ∧
    AllPendingLoads.remove
        { loads := [(⟨1⟩, PendingLoad.new "u1")]
          url_to_load_key := [("u1", ⟨1⟩)]
          keygen := ⟨1⟩ } ⟨2⟩
      = some (Option.none,
        { loads := [(⟨1⟩, PendingLoad.new "u1")]
          url_to_load_key := [("u1", ⟨1⟩)]
          keygen := ⟨1⟩ }) :=
  ⟨((remove_spec _ ⟨1⟩ (by decide)).2 (PendingLoad.new "u1") (by decide)).1,
   (remove_spec _ ⟨2⟩ (by decide)).1 (by decide)⟩

/-- C5: remove and get_cached preserve the two-map consistency invariant
(equal cardinality and mutual key consistency), and under it is_empty does
not trip its assertion and truthfully reports the emptiness of both indices
in agreement. -/
theorem pending_loads_invariant_preserved (s : AllPendingLoads)
    (hs : s.consistent) :
    (∀ key r s', s.remove key = some (r, s') →
      s'.consistent ∧ s'.loads.length = s'.url_to_load_key.length) ∧
    (∀ url cr r s', s.get_cached url cr = some (r, s') →
      s'.consistent ∧ s'.loads.length = s'.url_to_load_key.length) ∧
    s.is_empty = some s.loads.isEmpty ∧
    (s.loads.isEmpty = true ↔ s.loads = [] ∧ s.url_to_load_key = []) := by
  have hlen := hs.1
  have h1 : s.loads.isEmpty = decide (s.loads.length = 0) := by
    cases s.loads <;> simp
  have h2 : s.url_to_load_key.isEmpty = decide (s.url_to_load_key.length = 0) := by
    cases s.url_to_load_key <;> simp
  have hempty : s.loads.isEmpty = s.url_to_load_key.isEmpty := by
    rw [h1, h2, hlen]
  refine ⟨?_, ?_, ?_, ?_⟩
  · intro key r s' h
    have hc := AllPendingLoads.consistent_remove hs h
    exact ⟨hc, hc.1⟩
  · intro url cr r s' h
    have hc := AllPendingLoads.consistent_get_cached hs h
    exact ⟨hc, hc.1⟩
  · simp [AllPendingLoads.is_empty, hempty]
  · constructor
    · intro hle
      have hl0 : s.loads = [] := by
        rw [h1] at hle
        simpa using hle
      have hu0 : s.url_to_load_key = [] := by
        rw [hl0] at hlen
        exact List.length_eq_zero.mp hlen.symm
      exact ⟨hl0, hu0⟩
    · intro hb
      rw [hb.1]
      rfl

/-- Witness for C5 on a concrete one-entry state: removal yields a
consistent state, creation yields a consistent state, and is_empty reports
agreement of both indices. -/
theorem pending_loads_invariant_preserved_witness :
    AllPendingLoads.consistent
      { loads := aerase [(⟨1⟩, PendingLoad.new "u1")] ⟨1⟩
        url_to_load_key := aerase [("u1", ⟨1⟩)] (PendingLoad.new "u1").url
        keygen := ⟨1⟩ } ∧
    AllPendingLoads.is_empty
      { loads := [((⟨1⟩ : LoadKey), PendingLoad.new "u1")]
        url_to_load_key := [("u1", ⟨1⟩)]
        keygen := ⟨1⟩ } = some false :=
  ⟨(((pending_loads_invariant_preserved
      { loads := [((⟨1⟩ : LoadKey), PendingLoad.new "u1")]
        url_to_load_key := [("u1", ⟨1⟩)]
        keygen := ⟨1⟩ } (by decide)).1 ⟨1⟩
      (some (PendingLoad.new "u1"))
      { loads := aerase [(⟨1⟩, PendingLoad.new "u1")] ⟨1⟩
        url_to_load_key := aerase [("u1", ⟨1⟩)] (PendingLoad.new "u1").url
        keygen := ⟨1⟩ } (by decide))).1,
   (pending_loads_invariant_preserved
      { loads := [((⟨1⟩ : LoadKey), PendingLoad.new "u1")]
        url_to_load_key := [("u1", ⟨1⟩)]
        keygen := ⟨1⟩ } (by decide)).2.2.1⟩

/-- C1: the get-or-create dedup lookup: a tracked URL returns the existing
pending load and its key with both indices unchanged; an untracked URL with
requesting forbidden reports a miss without an entry and leaves the state
unchanged; an untracked URL with requesting permitted allocates the fresh
key, creates a new PendingLoad and inserts it into both indices; and in
every successful case at most one PendingLoad exists per URL afterwards. -/
theorem get_cached_dedup_spec (s : AllPendingLoads) (url : ServoUrl)
    (hs : s.consistent) :
    (∀ k pl, alookup s.url_to_load_key url = some k →
      alookup s.loads k = some pl →
      ∀ cr, s.get_cached url cr = some (CacheResult.hit k pl, s)) ∧
    (alookup s.url_to_load_key url = Option.none →
      s.get_cached url CanRequestImages.no
        = some (CacheResult.miss Option.none, s)) ∧
    (alookup s.url_to_load_key url = Option.none →
      s.keygen.counter + 1 < 2 ^ 64 →
      alookup s.loads ⟨s.keygen.counter + 1⟩ = Option.none ∧
      s.get_cached url CanRequestImages.yes
        = some (CacheResult.miss
            (some (⟨s.keygen.counter + 1⟩, PendingLoad.new url)),
          { loads := (⟨s.keygen.counter + 1⟩, PendingLoad.new url) :: s.loads
            url_to_load_key := (url, ⟨s.keygen.counter + 1⟩) :: s.url_to_load_key
            keygen := ⟨s.keygen.counter + 1⟩ })) ∧
    (∀ cr r s', s.get_cached url cr = some (r, s') →
      (s'.loads.map (fun p => p.2.url)).Nodup) := by
  refine ⟨?_, ?_, ?_, ?_⟩
  · intro k pl hu hl cr
    simp [AllPendingLoads.get_cached, hu, hl]
  · intro hu
    simp [AllPendingLoads.get_cached, hu]
  · intro hu hov
    have hfresh := hs.fresh_key_not_in_loads
    refine ⟨hfresh, ?_⟩
    simp only [AllPendingLoads.get_cached, hu, LoadKeyGenerator.next]
    rw [if_pos hov]
    simp only [hfresh]
  · intro cr r s' h
    exact AllPendingLoads.urls_nodup_of_consistent
      (AllPendingLoads.consistent_get_cached hs h)

/-- Witness for C1 on concrete states: a tracked hit, a forbidden miss and a
permitted creation. -/
theorem get_cached_dedup_spec_witness :
    AllPendingLoads.get_cached
        { loads := [(⟨1⟩, PendingLoad.new "u1")]
          url_to_load_key := [("u1", ⟨1⟩)]
          keygen := ⟨1⟩ } "u1" CanRequestImages.yes
      = some (CacheResult.hit ⟨1⟩ (PendingLoad.new "u1"),
        { loads := [(⟨1⟩, PendingLoad.new "u1")]
          url_to_load_key := [("u1", ⟨1⟩)]
          keygen := ⟨1⟩ }) ∧
    AllPendingLoads.get_cached AllPendingLoads.new "u1" CanRequestImages.no
      = some (CacheResult.miss Option.none, AllPendingLoads.new) ∧
    AllPendingLoads.get_cached AllPendingLoads.new "u1" CanRequestImages.yes
      = some (CacheResult.miss (some (⟨1⟩, PendingLoad.new "u1")),
        { loads := [(⟨1⟩, PendingLoad.new "u1")]
          url_to_load_key := [("u1", ⟨1⟩)]
          keygen := ⟨1⟩ }) :=
  ⟨(get_cached_dedup_spec _ "u1" (by decide)).1 ⟨1⟩ (PendingLoad.new "u1")
      (by decide) (by decide) CanRequestImages.yes,
   (get_cached_dedup_spec AllPendingLoads.new "u1" (by decide)).2.1 (by decide),
   ((get_cached_dedup_spec AllPendingLoads.new "u1" (by decide)).2.2.1
      (by decide) (by decide)).2⟩

/-- C2: when the URL is absent from the completed table,
find_image_or_metadata classifies: a pending hit with metadata but no
terminal result is metadata-available; a pending hit with neither terminal
result nor metadata is Pending(key); an untracked URL with requesting
permitted creates an entry and is NotRequested(key); an untracked URL with
requesting forbidden is LoadError; every returned value is an
ImageOrMetadataAvailable or an ImageState by the shape of the result type. -/
theorem find_image_or_metadata_classification
    (handle_decode : ImageCache → LoadKey → List Nat → ImageCache)
    (c : ImageCache) (url : ServoUrl) (up : UsePlaceholder)
    (hc : alookup c.completed_loads url = Option.none) :
    (∀ k pl, alookup c.pending_loads.url_to_load_key url = some k →
      alookup c.pending_loads.loads k = some pl →
      pl.result = Option.none →
      (∀ m, pl.metadata = some m →
        ∀ cr, c.find_image_or_metadata handle_decode url up cr
          = some (Except.ok (ImageOrMetadataAvailable.metadataAvailable m), c)) ∧
      (pl.metadata = Option.none →
        ∀ cr, c.find_image_or_metadata handle_decode url up cr
          = some (Except.error (ImageState.pending k), c))) ∧
    (alookup c.pending_loads.url_to_load_key url = Option.none →
      c.find_image_or_metadata handle_decode url up CanRequestImages.no
        = some (Except.error ImageState.loadError, c) ∧
      (c.pending_loads.consistent →
        c.pending_loads.keygen.counter + 1 < 2 ^ 64 →
        c.find_image_or_metadata handle_decode url up CanRequestImages.yes
          = some (Except.error
              (ImageState.notRequested ⟨c.pending_loads.keygen.counter + 1⟩),
            { c with pending_loads :=
              { loads := (⟨c.pending_loads.keygen.counter + 1⟩,
                  PendingLoad.new url) :: c.pending_loads.loads
                url_to_load_key := (url,
                  ⟨c.pending_loads.keygen.counter + 1⟩)
                  :: c.pending_loads.url_to_load_key
                keygen := ⟨c.pending_loads.keygen.counter + 1⟩ } }))) := by
  constructor
  · intro k pl hu hl hr
    constructor
    · intro m hm cr
      simp [ImageCache.find_image_or_metadata,
        ImageCache.get_completed_image_if_available, hc,
        AllPendingLoads.get_cached, hu, hl, hr, hm]
    · intro hm cr
      simp [ImageCache.find_image_or_metadata,
        ImageCache.get_completed_image_if_available, hc,
        AllPendingLoads.get_cached, hu, hl, hr, hm]
  · intro hu
    constructor
    · simp [ImageCache.find_image_or_metadata,
        ImageCache.get_completed_image_if_available, hc,
        AllPendingLoads.get_cached, hu]
    · intro hs hov
      have hfresh := hs.fresh_key_not_in_loads
      simp only [ImageCache.find_image_or_metadata,
        ImageCache.get_completed_image_if_available, hc, Option.map_none',
        AllPendingLoads.get_cached, hu, LoadKeyGenerator.next]
      rw [if_pos hov]
      simp only [hfresh]

/-- Witness for C2 at a concrete cache: the progressive-availability path
returning metadata for a pending load. -/
theorem find_image_or_metadata_classification_witness :
    ImageCache.find_image_or_metadata (fun c _ _ => c)
      { remove_me := 0
        completed_loads := []
        pending_loads :=
          { loads := [(⟨1⟩,
              { bytes := ImageBytes.inProgress [9]
                metadata := some ⟨3, 4⟩
                result := Option.none
                url := "u1" })]
            url_to_load_key := [("u1", ⟨1⟩)]
            keygen := ⟨1⟩ } }
      "u1" UsePlaceholder.no CanRequestImages.no
      = some (Except.ok (ImageOrMetadataAvailable.metadataAvailable ⟨3, 4⟩),
        { remove_me := 0
          completed_loads := []
          pending_loads :=
            { loads := [(⟨1⟩,
                { bytes := ImageBytes.inProgress [9]
                  metadata := some ⟨3, 4⟩
                  result := Option.none
                  url := "u1" })]
              url_to_load_key := [("u1", ⟨1⟩)]
              keygen := ⟨1⟩ } }) :=
  (((find_image_or_metadata_classification (fun c _ _ => c)
      { remove_me := 0
        completed_loads := []
        pending_loads :=
          { loads := [(⟨1⟩,
              { bytes := ImageBytes.inProgress [9]
                metadata := some ⟨3, 4⟩
                result := Option.none
                url := "u1" })]
            url_to_load_key := [("u1", ⟨1⟩)]
            keygen := ⟨1⟩ } }
      "u1" UsePlaceholder.no rfl).1 ⟨1⟩
      { bytes := ImageBytes.inProgress [9]
        metadata := some ⟨3, 4⟩
        result := Option.none
        url := "u1" }
      (by decide) (by decide) rfl).1 ⟨3, 4⟩ rfl CanRequestImages.no)

/-- C3: a terminal outcome delivered for a LoadKey with a matching pending
load removes the pending load from both indices of AllPendingLoads and
inserts a CompletedLoad keyed by the load's original URL; delivering a
terminal result again for the same LoadKey then finds no matching pending
load, is rejected, and leaves the cache (in particular the completed table)
unchanged. -/
theorem notify_terminal_finalization (decode : List Nat → ImageResponse)
    (ph : Option Image) (c : ImageCache) (id : PendingImageId)
    (pl : PendingLoad) (b : List Nat) (e : NetworkError)
    (hs : c.pending_loads.consistent)
    (hl : alookup c.pending_loads.loads id = some pl)
    (hb : pl.bytes = ImageBytes.inProgress b) :
    c.notify_pending_response decode ph id
        (FetchResponseMsg.processResponseEof LoadResult.ok)
      = some (c.finalize id pl (decode b)) ∧
    c.notify_pending_response decode ph id
        (FetchResponseMsg.processResponseEof (LoadResult.err e))
      = some (c.finalize id pl
          (match ph with
           | some image => ImageResponse.placeholderLoaded image
           | Option.none => ImageResponse.none)) ∧
    (∀ response,
      alookup (c.finalize id pl response).pending_loads.loads id
        = Option.none ∧
      alookup (c.finalize id pl response).pending_loads.url_to_load_key pl.url
        = Option.none ∧
      alookup (c.finalize id pl response).completed_loads pl.url
        = some (CompletedLoad.new response id) ∧
      (∀ u, u ≠ pl.url →
        alookup (c.finalize id pl response).completed_loads u
          = alookup c.completed_loads u) ∧
      (∀ res, (c.finalize id pl response).notify_pending_response decode ph id
          (FetchResponseMsg.processResponseEof res)
        = some (c.finalize id pl response))) := by
  have hu := hs.url_of_load hl
  refine ⟨?_, ?_, ?_⟩
  · simp [ImageCache.notify_pending_response, AllPendingLoads.remove, hl, hu,
      hb, ImageBytes.mark_complete, ImageCache.finalize, ainsert]
  · simp [ImageCache.notify_pending_response, AllPendingLoads.remove, hl, hu,
      ImageCache.finalize, ainsert]
  · intro response
    have h0 : alookup (c.finalize id pl response).pending_loads.loads id
        = Option.none := by
      simp [ImageCache.finalize, alookup_aerase_self]
    refine ⟨h0, ?_, ?_, ?_, ?_⟩
    · simp [ImageCache.finalize, alookup_aerase_self]
    · simp [ImageCache.finalize, ainsert, alookup_cons_self]
    · intro u hne
      simp only [ImageCache.finalize, ainsert]
      rw [alookup_cons_ne pl.url u _ _ (fun he => hne he.symm)]
      exact alookup_aerase_ne c.completed_loads pl.url u (fun he => hne he.symm)
    · intro res
      simp [ImageCache.notify_pending_response, AllPendingLoads.remove, h0]

/-- Witness for C3 at a concrete cache with one pending load: successful
terminal delivery finalizes the load. -/
theorem notify_terminal_finalization_witness :
    ImageCache.notify_pending_response
      (fun bytes => ImageResponse.loaded ⟨bytes.length⟩) Option.none
      { remove_me := 0
        completed_loads := []
        pending_loads :=
          { loads := [(⟨1⟩, PendingLoad.new "u1")]
            url_to_load_key := [("u1", ⟨1⟩)]
            keygen := ⟨1⟩ } }
      ⟨1⟩ (FetchResponseMsg.processResponseEof LoadResult.ok)
      = some (ImageCache.finalize
          { remove_me := 0
            completed_loads := []
            pending_loads :=
              { loads := [(⟨1⟩, PendingLoad.new "u1")]
                url_to_load_key := [("u1", ⟨1⟩)]
                keygen := ⟨1⟩ } }
          ⟨1⟩ (PendingLoad.new "u1") (ImageResponse.loaded ⟨0⟩)) :=
  (notify_terminal_finalization
    (fun bytes => ImageResponse.loaded ⟨bytes.length⟩) Option.none
    { remove_me := 0
      completed_loads := []
      pending_loads :=
        { loads := [(⟨1⟩, PendingLoad.new "u1")]
          url_to_load_key := [("u1", ⟨1⟩)]
          keygen := ⟨1⟩ } }
    ⟨1⟩ (PendingLoad.new "u1") [] "boom" (by decide) (by decide) rfl).1

end ImageCacheModel
